import Mathlib

/-!
Verification of the max-cut notebook pipeline (graph → Ising reduction →
exact solver → decoder → cut evaluator).

The notebook itself contains only glue code: the functions with algorithmic
content (the Ising reduction, the exact eigensolver, the most-likely-sample
decoder, the gset parser, the random-graph generator, the cut evaluator)
live in an external library whose sources are not part of this repository.
They are therefore modelled from the specification, with the sign/scale
convention pinned down by the worked example whose inputs and outputs are
recorded verbatim in the notebook: weight matrix
[[0,8,-9,0],[8,0,7,9],[-9,7,0,-8],[0,9,-8,0]], energy -20.5,
energy + offset = -24.0, solution [1,0,1,1], solution objective 24.0.
These recorded values force offset = -3.5 = -(1/2)·Σ w_ij and pairwise
Ising coefficient +w_ij/2 over pairs j < i.

All numeric values occurring in the pipeline are dyadic rationals, so the
arithmetic is modelled exactly over ℚ; every equality proved here implies
the corresponding floating-point-tolerance statement.
-/

namespace MaxCut

/-- Modelled from the spec: a WeightedGraph is a vertex count together with a
dense symmetric weight matrix with zero diagonal; the matrix is represented
as a total function on ℕ × ℕ (entries outside the n×n block are irrelevant
to every operation below, which only reads indices below n). -/
abbrev Weights : Type := ℕ → ℕ → ℚ

/-- Weight matrix of the worked example, exactly as printed by the notebook
cell that generates the seeded random graph:
[[0,8,-9,0],[8,0,7,9],[-9,7,0,-8],[0,9,-8,0]]. -/
def sampleW : Weights := fun i j =>
  match i, j with
  | 0, 1 => 8
  | 1, 0 => 8
  | 0, 2 => -9
  | 2, 0 => -9
  | 1, 2 => 7
  | 2, 1 => 7
  | 1, 3 => 9
  | 3, 1 => 9
  | 2, 3 => -8
  | 3, 2 => -8
  | _, _ => 0

/-- Sum of the weights over all unordered pairs, one representative
w i j with j < i per pair (for a symmetric matrix this equals the sum
of w_ij over i < j). -/
def pairSum (n : ℕ) (w : Weights) : ℚ :=
  ((List.range n).map (fun i => ((List.range i).map (fun j => w i j)).sum)).sum

/-- Modelled from the spec: the constant term of the Ising reduction
(the library function building the Hamiltonian from the weight matrix is
not in the repository).  The reduction walks every pair j < i and, for each
pair with a nonzero weight, subtracts w i j / 2 from the running shift;
the sign is fixed by the worked example recorded in the notebook
(energy -20.5 and energy + offset = -24.0 force offset = -3.5 there). -/
def isingOffset (n : ℕ) (w : Weights) : ℚ :=
  -(((List.range n).map
      (fun i => ((List.range i).map
        (fun j => if w i j ≠ 0 then w i j / 2 else 0)).sum)).sum)

/-- Modelled from the spec: the quadratic Ising cost of a ±1 spin
assignment, cost(z) = Σ over pairs j < i of (w i j / 2) · z i · z j,
accumulated over the same nonzero-weight pairs as the offset. -/
def isingCost (n : ℕ) (w : Weights) (z : ℕ → ℚ) : ℚ :=
  ((List.range n).map
    (fun i => ((List.range i).map
      (fun j => if w i j ≠ 0 then (w i j / 2) * z i * z j else 0)).sum)).sum

/-- A 0/1 assignment over the vertices, canonical {0,1} encoding as Booleans
(true = 1). -/
abbrev Assignment : Type := List Bool

/-- Spin value of one vertex: z i = 1 - 2·x i, so false ↦ 1 and true ↦ -1. -/
def spinOf (x : Assignment) : ℕ → ℚ :=
  fun i => if x.getD i false then -1 else 1

/-- Binary expansion of index k as an n-bit 0/1 assignment, most-significant
bit first matching vertex 0. -/
def decodeBits (n k : ℕ) : Assignment :=
  (List.range n).map (fun i => Nat.testBit k (n - 1 - i))

/-- Ising cost of the spin assignment encoded by bitstring index k. -/
def costAt (n : ℕ) (w : Weights) (k : ℕ) : ℚ :=
  isingCost n w (spinOf (decodeBits n k))

/-- First-minimum scan: examines f 0, …, f (c-1) in order and keeps the
strictly smallest value seen, so ties are resolved toward the smallest
index.  (For c = 0 it degenerates to (0, f 0); it is only used with c ≥ 1.) -/
def findMinIdx (f : ℕ → ℚ) : ℕ → ℕ × ℚ
  | 0 => (0, f 0)
  | 1 => (0, f 0)
  | m + 2 =>
    let p := findMinIdx f (m + 1)
    if f (m + 1) < p.2 then (m + 1, f (m + 1)) else p

/-- Modelled from the spec: the exact solver enumerates all 2^n bitstring
indices, evaluates the Ising cost of each, and returns the minimum cost
together with the decoded 0/1 assignment of the first index attaining it
(the exact eigensolver used by the notebook is not in the repository). -/
def solveExact (n : ℕ) (w : Weights) : ℚ × Assignment :=
  let p := findMinIdx (costAt n w) (2 ^ n)
  (p.2, decodeBits n p.1)

/-- First-maximum scan, the mirror of findMinIdx: keeps the strictly
largest value seen so far, resolving ties toward the smallest index. -/
def findMaxIdx (f : ℕ → ℚ) : ℕ → ℕ × ℚ
  | 0 => (0, f 0)
  | 1 => (0, f 0)
  | m + 2 =>
    let p := findMaxIdx f (m + 1)
    if p.2 < f (m + 1) then (m + 1, f (m + 1)) else p

/-- Modelled from the spec: the decoder for a probability vector selects the
index of maximum weight (smallest index among ties) and converts that
index's binary representation to an n-length 0/1 assignment,
most-significant bit first matching vertex 0. -/
def mostLikely (n : ℕ) (probs : List ℚ) : Assignment :=
  decodeBits n (findMaxIdx (fun i => probs.getD i 0) probs.length).1

/-- Probability vector with weight 1 at index k and 0 elsewhere. -/
def oneHot (len k : ℕ) : List ℚ :=
  (List.range len).map (fun i => if i = k then 1 else 0)

/-- Modelled from the spec: the ground-truth cut value of a 0/1 assignment,
Σ over pairs j < i with x i ≠ x j of w i j (for a symmetric matrix this is
the sum of the weights of the edges crossing the bipartition). -/
def cutValue (x : Assignment) (n : ℕ) (w : Weights) : ℚ :=
  ((List.range n).map
    (fun i => ((List.range i).map
      (fun j => if x.getD i false ≠ x.getD j false then w i j else 0)).sum)).sum

/-- Modelled from the spec: reconcile a solver's reported energy with the
cut objective, reconcile(energy, offset) = -(energy + offset). -/
def reconcile (energy offset : ℚ) : ℚ :=
  -(energy + offset)

/-- Complement of a 0/1 assignment: y i = 1 - x i. -/
def complement (x : Assignment) : Assignment :=
  x.map (fun b => !b)

/-- Error raised by the graph loader on malformed or inconsistent input. -/
inductive FormatError : Type
  | edgeCountMismatch : FormatError
  | indexOutOfRange : FormatError
deriving DecidableEq

/-- Tests whether an Except value is an error. -/
def isError {ε α : Type} : Except ε α → Bool
  | Except.error _ => true
  | Except.ok _ => false

/-- Edge line of the gset text format: 1-based endpoints and a weight. -/
abbrev EdgeLine : Type := ℕ × ℕ × ℚ

/-- An edge endpoint is out of the valid 1-based range [1, n]. -/
def badIndex (n : ℕ) (e : EdgeLine) : Bool :=
  e.1 = 0 || n < e.1 || e.2.1 = 0 || n < e.2.1

/-- Symmetric matrix built from an edge list: both w[i-1][j-1] and
w[j-1][i-1] are set to the edge's weight, later lines overriding earlier
ones; unspecified entries are zero. -/
def buildMatrix (edges : List EdgeLine) : Weights :=
  edges.foldl
    (fun acc e => fun i j =>
      if (i = e.1 - 1 ∧ j = e.2.1 - 1) ∨ (i = e.2.1 - 1 ∧ j = e.1 - 1)
      then e.2.2 else acc i j)
    (fun _ _ => 0)

/-- Modelled from the spec: the gset-format loader (the parser used by the
notebook is not in the repository).  The header declares n vertices and m
edges; the body is the list of parsed edge lines.  Loading fails with
FormatError when the number of edge lines differs from the declared m
(in particular when fewer than m lines are present) or when an endpoint
lies outside [1, n]; otherwise it builds the symmetric weight matrix. -/
def load (n m : ℕ) (edges : List EdgeLine) : Except FormatError Weights :=
  if edges.length ≠ m then Except.error FormatError.edgeCountMismatch
  else if edges.any (badIndex n) then Except.error FormatError.indexOutOfRange
  else Except.ok (buildMatrix edges)

/-- Ambient process-global random-generator state (the state the reference
implementation mutates via its global seed call). -/
structure GlobalRandomState : Type where
  state : ℕ
deriving DecidableEq

/-- Linear-congruential step of the explicit local generator. -/
def lcgNext (s : ℕ) : ℕ :=
  (1103515245 * s + 12345) % 2 ^ 31

/-- Draw for one unordered vertex pair from the local generator: an edge is
present with probability edgeProb (compared on a 2^20 grid) and then
carries an integer weight uniform in [-weightRange, weightRange]. -/
def pairDraw (edgeProb : ℚ) (weightRange : ℕ) (s : ℕ) : ℚ × ℕ :=
  let s1 := lcgNext s
  let s2 := lcgNext s1
  let present : Bool := ((s1 % 2 ^ 20 : ℕ) : ℚ) / (2 ^ 20 : ℚ) < edgeProb
  let wgt : ℚ := if present then ((s2 % (2 * weightRange + 1) : ℕ) : ℚ) - (weightRange : ℚ) else 0
  (wgt, s2)

/-- Modelled from the spec: explicitly seeded random-graph generator (the
generator used by the notebook is not in the repository, and the spec
requires a redesign threading an explicit seed instead of the ambient
global generator).  A local generator state is derived from the seed alone
and threaded through the unordered pairs j < i; the result is a symmetric
zero-diagonal matrix. -/
def randomGraph (n : ℕ) (edgeProb : ℚ) (weightRange : ℕ) (seed : ℕ) : Weights :=
  let pairs : List (ℕ × ℕ) :=
    (List.range n).flatMap (fun i => (List.range i).map (fun j => (i, j)))
  let drawn : List ((ℕ × ℕ) × ℚ) :=
    (pairs.foldl
      (fun acc p =>
        let d := pairDraw edgeProb weightRange acc.2
        ((p, d.1) :: acc.1, d.2))
      ([], lcgNext seed)).1
  fun i j =>
    match drawn.find? (fun q => (q.1.1 = i && q.1.2 = j) || (q.1.1 = j && q.1.2 = i)) with
    | some q => q.2
    | none => 0

/-- State-passing embedding of the generator call inside the program: the
ambient global random state is available to the call, and per the spec the
result is computed from the explicit arguments alone while the ambient
state passes through. -/
def randomGraphRun (n : ℕ) (edgeProb : ℚ) (weightRange : ℕ) (seed : ℕ)
    (ambient : GlobalRandomState) : Weights × GlobalRandomState :=
  (randomGraph n edgeProb weightRange seed, ambient)

/-- Names bound in the notebook's global namespace by the time the
CPLEX branch runs: the nine imported names, then w / qubitOp / offset
(file-load cell and random-graph cell), to_be_tested_algos, result and x
(exact-eigensolver cell), cplex_installed and the imported CPLEX_Ising. -/
def notebookBoundNames : List String :=
  ["np", "BasicAer", "max_cut", "QuantumInstance", "ExactEigensolver",
   "VQE", "L_BFGS_B", "RYRZ", "parse_gset_format", "random_graph",
   "sample_most_likely", "w", "qubitOp", "offset", "to_be_tested_algos",
   "result", "x", "cplex_installed", "CPLEX_Ising"]

/-- Outcome of evaluating one Python expression: success, or a NameError
carrying the unresolved name. -/
inductive PyEval : Type
  | ok : PyEval
  | nameError : String → PyEval
deriving DecidableEq

/-- Looking up a name in the bound-name environment. -/
def lookupName (env : List String) (nm : String) : PyEval :=
  if env.contains nm then PyEval.ok else PyEval.nameError nm

/-- The guarded CPLEX cell: when cplex_installed is true it evaluates the
call whose argument is the name written in the source, qubit_op; when
false the branch is skipped. -/
def cplexBranch (cplexInstalled : Bool) : PyEval :=
  if cplexInstalled then lookupName notebookBoundNames "qubit_op" else PyEval.ok

/-- Values the notebook reports from the exact-solver cell. -/
structure NotebookOutputs : Type where
  energy : ℚ
  offset : ℚ
  maxcutObjective : ℚ
  solution : Assignment
  solutionObjective : ℚ
deriving DecidableEq

/-- The notebook pipeline as a function of the graph-file contents: the
file is loaded (a FormatError aborts the run), its graph and reduction are
bound, and then the cell guarded by the always-true conditional rebinds
w, the operator and the offset from the seeded random graph — recorded in
the notebook as the sampleW matrix — before anything is reported. -/
def notebookRun (n m : ℕ) (edges : List EdgeLine) : Except FormatError NotebookOutputs :=
  (load n m edges).map (fun wFile =>
    let offsetFile := isingOffset n wFile
    let _ := offsetFile
    let w := sampleW
    let offset := isingOffset 4 w
    let p := solveExact 4 w
    { energy := p.1
      offset := offset
      maxcutObjective := p.1 + offset
      solution := p.2
      solutionObjective := cutValue p.2 4 w })

/-! Helper lemmas. -/

/-- Contribution of one vertex pair: the cost term minus the offset term
equals minus the cut indicator term, for any weight and any pair of bits. -/
lemma pair_term (v : ℚ) (x : Assignment) (i j : ℕ) :
    (if v ≠ 0 then (v / 2) * spinOf x i * spinOf x j else 0)
      - (if v ≠ 0 then v / 2 else 0)
      = -(if x.getD i false ≠ x.getD j false then v else 0) := by
  unfold spinOf
  by_cases hv : v = 0
  · simp [hv]
  · cases hb : x.getD i false <;> cases hc : x.getD j false <;>
      simp [hv, hb, hc] <;> ring

/-- Row version of pair_term, summed over any list of column indices. -/
lemma row_term (w : Weights) (x : Assignment) (i : ℕ) (l : List ℕ) :
    ((l.map (fun j => if w i j ≠ 0 then (w i j / 2) * spinOf x i * spinOf x j else 0)).sum)
      - ((l.map (fun j => if w i j ≠ 0 then w i j / 2 else 0)).sum)
      = -((l.map (fun j => if x.getD i false ≠ x.getD j false then w i j else 0)).sum) := by
  induction l with
  | nil => simp
  | cons a t ih =>
    simp only [List.map_cons, List.sum_cons]
    have hp := pair_term (w i a) x i a
    linarith

/-- Central identity of the reduction: for every 0/1 assignment, Ising cost
of its spins plus the offset equals minus its cut value. -/
lemma cost_add_offset (n : ℕ) (w : Weights) (x : Assignment) :
    isingCost n w (spinOf x) + isingOffset n w = -(cutValue x n w) := by
  unfold isingCost isingOffset cutValue
  have key : ∀ L : List ℕ,
      ((L.map (fun i => ((List.range i).map
          (fun j => if w i j ≠ 0 then (w i j / 2) * spinOf x i * spinOf x j else 0)).sum)).sum)
        - ((L.map (fun i => ((List.range i).map
          (fun j => if w i j ≠ 0 then w i j / 2 else 0)).sum)).sum)
        = -((L.map (fun i => ((List.range i).map
          (fun j => if x.getD i false ≠ x.getD j false then w i j else 0)).sum)).sum) := by
    intro L
    induction L with
    | nil => simp
    | cons a t ih =>
      simp only [List.map_cons, List.sum_cons]
      have hr := row_term w x a (List.range a)
      linarith
  have h := key (List.range n)
  linarith

/-- Dropping the nonzero-weight guard: each guarded half-weight term equals
the plain half weight. -/
lemma row_offset (w : Weights) (i : ℕ) (l : List ℕ) :
    (l.map (fun j => if w i j ≠ 0 then w i j / 2 else 0)).sum
      = (l.map (fun j => w i j)).sum / 2 := by
  induction l with
  | nil => simp
  | cons a t ih =>
    simp only [List.map_cons, List.sum_cons, ih]
    by_cases hv : w i a = 0
    · simp [hv]
    · simp [hv]; ring

/-- Pulling the constant factor 1/2 out of a list sum. -/
lemma sum_map_half (g : ℕ → ℚ) (L : List ℕ) :
    (L.map (fun i => g i / 2)).sum = (L.map g).sum / 2 := by
  induction L with
  | nil => simp
  | cons a t ih =>
    simp only [List.map_cons, List.sum_cons, ih]
    ring

/-- Summed version of row_offset over any list of row indices. -/
lemma rows_offset (w : Weights) (L : List ℕ) :
    (L.map (fun i => ((List.range i).map
        (fun j => if w i j ≠ 0 then w i j / 2 else 0)).sum)).sum
      = (L.map (fun i => ((List.range i).map (fun j => w i j)).sum)).sum / 2 := by
  calc (L.map (fun i => ((List.range i).map
          (fun j => if w i j ≠ 0 then w i j / 2 else 0)).sum)).sum
      = (L.map (fun i => ((List.range i).map (fun j => w i j)).sum / 2)).sum := by
        refine congrArg List.sum (List.map_congr_left ?_)
        intro i _
        exact row_offset w i (List.range i)
    _ = (L.map (fun i => ((List.range i).map (fun j => w i j)).sum)).sum / 2 :=
        sum_map_half _ L

/-- Characterisation of the first-minimum scan over indices 0..m: it returns
an index in range holding the scanned value, that value is a lower bound of
f on the range, and any other index attaining it is at least the returned
index. -/
lemma findMinIdx_spec (f : ℕ → ℚ) : ∀ m : ℕ,
    (findMinIdx f (m + 1)).1 ≤ m ∧
    f (findMinIdx f (m + 1)).1 = (findMinIdx f (m + 1)).2 ∧
    (∀ j, j ≤ m → (findMinIdx f (m + 1)).2 ≤ f j) ∧
    (∀ j, j ≤ m → f j = (findMinIdx f (m + 1)).2 → (findMinIdx f (m + 1)).1 ≤ j) := by
  intro m
  induction m with
  | zero =>
    refine ⟨le_refl 0, rfl, ?_, ?_⟩
    · intro j hj
      have : j = 0 := Nat.le_zero.mp hj
      simp [this, findMinIdx]
    · intro j _ _
      simp [findMinIdx]
  | succ k ih =>
    obtain ⟨h1, h2, h3, h4⟩ := ih
    have heq : findMinIdx f (k + 2) =
        (if f (k + 1) < (findMinIdx f (k + 1)).2
          then (k + 1, f (k + 1)) else findMinIdx f (k + 1)) := rfl
    by_cases hlt : f (k + 1) < (findMinIdx f (k + 1)).2
    · rw [heq, if_pos hlt]
      refine ⟨le_refl _, rfl, ?_, ?_⟩
      · intro j hj
        by_cases hjk : j ≤ k
        · exact le_of_lt (lt_of_lt_of_le hlt (h3 j hjk))
        · have : j = k + 1 := by omega
          simp [this]
      · intro j hj hfj
        by_cases hjk : j ≤ k
        · exfalso
          have := h3 j hjk
          rw [hfj] at this
          exact absurd this (not_le.mpr hlt)
        · omega
    · rw [heq, if_neg hlt]
      refine ⟨le_trans h1 (Nat.le_succ k), h2, ?_, ?_⟩
      · intro j hj
        by_cases hjk : j ≤ k
        · exact h3 j hjk
        · have : j = k + 1 := by omega
          rw [this]
          exact not_lt.mp hlt
      · intro j hj hfj
        by_cases hjk : j ≤ k
        · exact h4 j hjk hfj
        · omega

/-- Characterisation of the first-maximum scan, mirror of findMinIdx_spec. -/
lemma findMaxIdx_spec (f : ℕ → ℚ) : ∀ m : ℕ,
    (findMaxIdx f (m + 1)).1 ≤ m ∧
    f (findMaxIdx f (m + 1)).1 = (findMaxIdx f (m + 1)).2 ∧
    (∀ j, j ≤ m → f j ≤ (findMaxIdx f (m + 1)).2) ∧
    (∀ j, j ≤ m → f j = (findMaxIdx f (m + 1)).2 → (findMaxIdx f (m + 1)).1 ≤ j) := by
  intro m
  induction m with
  | zero =>
    refine ⟨le_refl 0, rfl, ?_, ?_⟩
    · intro j hj
      have : j = 0 := Nat.le_zero.mp hj
      simp [this, findMaxIdx]
    · intro j _ _
      simp [findMaxIdx]
  | succ k ih =>
    obtain ⟨h1, h2, h3, h4⟩ := ih
    have heq : findMaxIdx f (k + 2) =
        (if (findMaxIdx f (k + 1)).2 < f (k + 1)
          then (k + 1, f (k + 1)) else findMaxIdx f (k + 1)) := rfl
    by_cases hlt : (findMaxIdx f (k + 1)).2 < f (k + 1)
    · rw [heq, if_pos hlt]
      refine ⟨le_refl _, rfl, ?_, ?_⟩
      · intro j hj
        by_cases hjk : j ≤ k
        · exact le_of_lt (lt_of_le_of_lt (h3 j hjk) hlt)
        · have : j = k + 1 := by omega
          simp [this]
      · intro j hj hfj
        by_cases hjk : j ≤ k
        · exfalso
          have := h3 j hjk
          rw [hfj] at this
          exact absurd this (not_le.mpr hlt)
        · omega
    · rw [heq, if_neg hlt]
      refine ⟨le_trans h1 (Nat.le_succ k), h2, ?_, ?_⟩
      · intro j hj
        by_cases hjk : j ≤ k
        · exact h3 j hjk
        · have : j = k + 1 := by omega
          rw [this]
          exact not_lt.mp hlt
      · intro j hj hfj
        by_cases hjk : j ≤ k
        · exact h4 j hjk hfj
        · omega

/-- getD on a pointwise-negated Boolean list, inside the list's range. -/
lemma getD_map_not (x : List Bool) : ∀ i, i < x.length →
    (x.map (fun b => !b)).getD i false = !(x.getD i false) := by
  induction x with
  | nil =>
    intro i h
    simp at h
  | cons a t ih =>
    intro i h
    cases i with
    | zero => simp
    | succ j =>
      simp only [List.map_cons, List.getD_cons_succ]
      exact ih j (by simpa using h)

/-- Length of a one-hot vector. -/
lemma oneHot_length (len k : ℕ) : (oneHot len k).length = len := by
  simp [oneHot]

/-- Entries of a one-hot vector inside its range. -/
lemma oneHot_getD (len k i : ℕ) (h : i < len) :
    (oneHot len k).getD i 0 = if i = k then 1 else 0 := by
  unfold oneHot
  rw [List.getD_eq_getElem _ _ (by simpa using h)]
  simp

/-! Claim theorems. -/

set_option maxHeartbeats 4000000 in
/-- Claim C1, counterexample: on the worked-example graph the reduction's
offset is -7/2, not the claimed 9/2, and the reported max-cut objective
(energy + offset) is -24, not the claimed 24. -/
theorem sample_pipeline_claim_false :
    ¬(isingOffset 4 sampleW = 9 / 2) ∧
    ¬((solveExact 4 sampleW).1 + isingOffset 4 sampleW = 24) := by
  have hoff : isingOffset 4 sampleW = -7 / 2 := by
    norm_num [isingOffset, sampleW, List.range_succ]
  have hsolve : solveExact 4 sampleW = (-41 / 2, [false, true, false, false]) := by
    norm_num [solveExact, findMinIdx, costAt, isingCost, decodeBits, spinOf,
      sampleW, List.range_succ, Nat.testBit, Nat.shiftRight_eq_div_pow]
  rw [hoff, hsolve]
  norm_num

set_option maxHeartbeats 4000000 in
/-- Claim C1, amended: on the graph with weight matrix
[[0,8,-9,0],[8,0,7,9],[-9,7,0,-8],[0,9,-8,0]] the exact solver reports
energy -41/2 = -20.5, the reduction's offset is -7/2 = -3.5, the reported
max-cut objective energy + offset is -24, and the decoded solution is the
complement of [1,0,1,1], whose cut value is 24. -/
theorem sample_pipeline_values :
    (solveExact 4 sampleW).1 = -41 / 2 ∧
    isingOffset 4 sampleW = -7 / 2 ∧
    (solveExact 4 sampleW).1 + isingOffset 4 sampleW = -24 ∧
    (solveExact 4 sampleW).2 = complement [true, false, true, true] ∧
    cutValue (solveExact 4 sampleW).2 4 sampleW = 24 := by
  have hoff : isingOffset 4 sampleW = -7 / 2 := by
    norm_num [isingOffset, sampleW, List.range_succ]
  have hsolve : solveExact 4 sampleW = (-41 / 2, [false, true, false, false]) := by
    norm_num [solveExact, findMinIdx, costAt, isingCost, decodeBits, spinOf,
      sampleW, List.range_succ, Nat.testBit, Nat.shiftRight_eq_div_pow]
  have hcompl : complement [true, false, true, true] = [false, true, false, false] := rfl
  refine ⟨by rw [hsolve], hoff, ?_, ?_, ?_⟩
  · rw [hsolve, hoff]
    norm_num
  · rw [hsolve, hcompl]
  · rw [hsolve]
    norm_num [cutValue, sampleW, List.range_succ, List.getD]

/-- Claim C2: for every weight matrix, reconcile applied to the exact
solver's minimum cost and the reduction's offset, -(minCost + offset),
equals the cut value of the decoded solution (proved as an exact rational
equality, which implies equality within any floating-point tolerance). -/
theorem reconcile_roundtrip (n : ℕ) (w : Weights) :
    reconcile (solveExact n w).1 (isingOffset n w)
      = cutValue (solveExact n w).2 n w := by
  obtain ⟨m, hm⟩ : ∃ m, 2 ^ n = m + 1 :=
    ⟨2 ^ n - 1, by have h2 := pow_pos (by norm_num : (0:ℕ) < 2) n; omega⟩
  have spec := findMinIdx_spec (costAt n w) m
  have hsolve : solveExact n w
      = ((findMinIdx (costAt n w) (m + 1)).2,
          decodeBits n (findMinIdx (costAt n w) (m + 1)).1) := by
    unfold solveExact
    rw [hm]
  rw [hsolve]
  unfold reconcile
  have hval := spec.2.1
  have hco := cost_add_offset n w (decodeBits n (findMinIdx (costAt n w) (m + 1)).1)
  have hcost : costAt n w (findMinIdx (costAt n w) (m + 1)).1
      = isingCost n w (spinOf (decodeBits n (findMinIdx (costAt n w) (m + 1)).1)) := rfl
  rw [← hval, hcost]
  linarith

/-- Claim C3, counterexample: on the worked-example graph the offset is
-7/2 while half the pairwise weight sum is 7/2, so the claimed identity
offset = (1/2)·Σ w_ij fails. -/
theorem offset_sign_counterexample :
    ¬(isingOffset 4 sampleW = pairSum 4 sampleW / 2) := by
  have hoff : isingOffset 4 sampleW = -7 / 2 := by
    norm_num [isingOffset, sampleW, List.range_succ]
  have hps : pairSum 4 sampleW = 7 := by
    norm_num [pairSum, sampleW, List.range_succ]
  rw [hoff, hps]
  norm_num

/-- Claim C3, amended: for every weight matrix the reduction's offset
equals minus one half of the pairwise weight sum; equivalently the pairwise
weight sum equals minus twice the offset. -/
theorem offset_eq_neg_half_pairSum (n : ℕ) (w : Weights) :
    isingOffset n w = -(pairSum n w) / 2 ∧ pairSum n w = -(2 * isingOffset n w) := by
  have h : isingOffset n w = -(pairSum n w) / 2 := by
    unfold isingOffset pairSum
    rw [rows_offset]
    ring
  exact ⟨h, by rw [h]; ring⟩

/-- Claim C4: the exact solver returns the cost and decoded bits of an
index k below 2^n whose Ising cost is a global minimum over all 2^n
bitstring indices, and any index attaining the minimum is at least k
(smallest-index tie-break). -/
theorem solveExact_global_min (n : ℕ) (w : Weights) :
    ∃ k, k < 2 ^ n ∧ solveExact n w = (costAt n w k, decodeBits n k) ∧
      (∀ j, j < 2 ^ n → costAt n w k ≤ costAt n w j) ∧
      (∀ j, j < 2 ^ n → costAt n w j = costAt n w k → k ≤ j) := by
  obtain ⟨m, hm⟩ : ∃ m, 2 ^ n = m + 1 :=
    ⟨2 ^ n - 1, by have h2 := pow_pos (by norm_num : (0:ℕ) < 2) n; omega⟩
  obtain ⟨h1, h2, h3, h4⟩ := findMinIdx_spec (costAt n w) m
  refine ⟨(findMinIdx (costAt n w) (m + 1)).1, ?_, ?_, ?_, ?_⟩
  · rw [hm]
    omega
  · unfold solveExact
    rw [hm]
    show ((findMinIdx (costAt n w) (m + 1)).2,
        decodeBits n (findMinIdx (costAt n w) (m + 1)).1) = _
    rw [← h2]
  · intro j hj
    rw [hm] at hj
    rw [h2]
    exact h3 j (by omega)
  · intro j hj hfj
    rw [hm] at hj
    exact h4 j (by omega) (hfj.trans h2)

/-- Claim C5: complementing every bit of an assignment that covers the n
vertices leaves the cut value unchanged. -/
theorem cutValue_complement (n : ℕ) (w : Weights) (x : Assignment)
    (h : n ≤ x.length) :
    cutValue (complement x) n w = cutValue x n w := by
  unfold cutValue complement
  refine congrArg List.sum (List.map_congr_left ?_)
  intro i hi
  refine congrArg List.sum (List.map_congr_left ?_)
  intro j hj
  have hi' : i < x.length := lt_of_lt_of_le (List.mem_range.mp hi) h
  have hj' : j < x.length :=
    lt_of_lt_of_le (lt_trans (List.mem_range.mp hj) (List.mem_range.mp hi)) h
  rw [getD_map_not x i hi', getD_map_not x j hj']
  cases hbi : x.getD i false <;> cases hbj : x.getD j false <;> simp

/-- Claim C5, witness: complement symmetry instantiated on the
worked-example graph and the assignment [1,0,1,1]. -/
theorem cutValue_complement_witness :
    cutValue (complement [true, false, true, true]) 4 sampleW
      = cutValue [true, false, true, true] 4 sampleW :=
  cutValue_complement 4 sampleW [true, false, true, true] (by decide)

/-- Claim C6: the most-likely decoder applied to the probability vector
with weight 1 at index k below 2^n and 0 elsewhere returns the n-bit
binary expansion of k, most-significant bit first; and on any probability
vector, indices tied at the maximum weight are resolved toward the
smallest index. -/
theorem mostLikely_oneHot (n k : ℕ) (hk : k < 2 ^ n) :
    mostLikely n (oneHot (2 ^ n) k) = decodeBits n k ∧
    ∀ (probs : List ℚ) (j : ℕ), j < probs.length →
      probs.getD j 0 = (findMaxIdx (fun i => probs.getD i 0) probs.length).2 →
      (findMaxIdx (fun i => probs.getD i 0) probs.length).1 ≤ j := by
  constructor
  · obtain ⟨m, hm⟩ : ∃ m, 2 ^ n = m + 1 :=
      ⟨2 ^ n - 1, by have h2 := pow_pos (by norm_num : (0:ℕ) < 2) n; omega⟩
    have hk' : k ≤ m := by omega
    obtain ⟨h1, h2, h3, h4⟩ :=
      findMaxIdx_spec (fun i => (oneHot (2 ^ n) k).getD i 0) m
    have hlen : (oneHot (2 ^ n) k).length = m + 1 := by
      rw [oneHot_length, hm]
    unfold mostLikely
    rw [hlen]
    have hfk : (oneHot (2 ^ n) k).getD k 0 = 1 := by
      rw [oneHot_getD _ _ _ hk]
      simp
    have hmax := h3 k hk'
    rw [hfk] at hmax
    have hfp : (oneHot (2 ^ n) k).getD
        (findMaxIdx (fun i => (oneHot (2 ^ n) k).getD i 0) (m + 1)).1 0
        = if (findMaxIdx (fun i => (oneHot (2 ^ n) k).getD i 0) (m + 1)).1 = k
          then 1 else 0 :=
      oneHot_getD _ _ _ (by omega)
    by_cases hpk :
        (findMaxIdx (fun i => (oneHot (2 ^ n) k).getD i 0) (m + 1)).1 = k
    · rw [hpk]
    · exfalso
      rw [hfp, if_neg hpk] at h2
      rw [← h2] at hmax
      linarith
  · intro probs j hj hfj
    obtain ⟨m', hm'⟩ : ∃ m', probs.length = m' + 1 := ⟨probs.length - 1, by omega⟩
    obtain ⟨_, _, _, h4⟩ := findMaxIdx_spec (fun i => probs.getD i 0) m'
    rw [hm'] at hfj ⊢
    exact h4 j (by omega) hfj

/-- Claim C6, witness: the decoder on the one-hot vector at index 3 of
length 2^2 returns the two-bit expansion of 3. -/
theorem mostLikely_oneHot_witness :
    mostLikely 2 (oneHot (2 ^ 2) 3) = decodeBits 2 3 :=
  (mostLikely_oneHot 2 3 (by decide)).1

/-- Claim C7: the loader fails with a FormatError whenever the number of
parsed edge lines differs from the declared count m (in particular when
fewer than m lines are present) or whenever an edge endpoint lies outside
the 1-based range [1, n]. -/
theorem load_error (n m : ℕ) (edges : List EdgeLine)
    (h : edges.length ≠ m ∨ ∃ e ∈ edges, badIndex n e = true) :
    isError (load n m edges) = true := by
  unfold load
  rcases h with hlen | hbad
  · rw [if_pos hlen]
    rfl
  · by_cases hlen : edges.length ≠ m
    · rw [if_pos hlen]
      rfl
    · have hany : edges.any (badIndex n) = true := by
        simp only [List.any_eq_true]
        exact hbad
      rw [if_neg hlen, if_pos hany]
      rfl

/-- Claim C7, witness: an input declaring m = 2 edges while providing a
single edge line is rejected with a FormatError. -/
theorem load_error_witness :
    isError (load 3 2 [(1, 2, (5 : ℚ))]) = true :=
  load_error 3 2 [(1, 2, (5 : ℚ))] (Or.inl (by decide))

/-- Claim C8: the explicitly seeded random-graph generator is a pure
function of its explicit arguments; in the state-passing embedding its
result is the same for any two ambient global random states, and coincides
with the generator applied to the explicit arguments alone. -/
theorem randomGraph_deterministic (n : ℕ) (p : ℚ) (wr seed : ℕ)
    (g₁ g₂ : GlobalRandomState) :
    (randomGraphRun n p wr seed g₁).1 = (randomGraphRun n p wr seed g₂).1 ∧
    (randomGraphRun n p wr seed g₁).1 = randomGraph n p wr seed :=
  ⟨rfl, rfl⟩

/-- Claim C9: when the CPLEX import succeeds the guarded branch evaluates
the name qubit_op, which is absent from the notebook's bound names (the
operator is bound as qubitOp), so the branch raises a NameError instead of
producing a result. -/
theorem cplex_branch_name_error :
    cplexBranch true = PyEval.nameError "qubit_op" ∧
    notebookBoundNames.contains "qubit_op" = false ∧
    notebookBoundNames.contains "qubitOp" = true := by
  refine ⟨?_, ?_, ?_⟩ <;> decide

/-- Claim C10: every reported value is independent of the loaded graph
file, because the always-true guard rebinds the graph, operator and offset
from the seeded random graph: any two file contents that load successfully
produce identical notebook outputs. -/
theorem notebook_outputs_file_independent (n₁ m₁ : ℕ) (e₁ : List EdgeLine)
    (n₂ m₂ : ℕ) (e₂ : List EdgeLine)
    (h₁ : isError (notebookRun n₁ m₁ e₁) = false)
    (h₂ : isError (notebookRun n₂ m₂ e₂) = false) :
    notebookRun n₁ m₁ e₁ = notebookRun n₂ m₂ e₂ := by
  have key : ∀ (n m : ℕ) (e : List EdgeLine), isError (notebookRun n m e) = false →
      notebookRun n m e = Except.ok
        { energy := (solveExact 4 sampleW).1
          offset := isingOffset 4 sampleW
          maxcutObjective := (solveExact 4 sampleW).1 + isingOffset 4 sampleW
          solution := (solveExact 4 sampleW).2
          solutionObjective := cutValue (solveExact 4 sampleW).2 4 sampleW } := by
    intro n m e h
    unfold notebookRun at h ⊢
    rcases hl : load n m e with er | wfile
    · rw [hl] at h
      simp [isError, Except.map] at h
    · rfl
  rw [key n₁ m₁ e₁ h₁, key n₂ m₂ e₂ h₂]

/-- Claim C10, witness: two different well-formed graph files produce
identical notebook outputs. -/
theorem notebook_outputs_file_independent_witness :
    isError (notebookRun 2 1 [(1, 2, (5 : ℚ))]) = false ∧
    isError (notebookRun 3 2 [(1, 3, (2 : ℚ)), (2, 3, (4 : ℚ))]) = false ∧
    notebookRun 2 1 [(1, 2, (5 : ℚ))]
      = notebookRun 3 2 [(1, 3, (2 : ℚ)), (2, 3, (4 : ℚ))] :=
  ⟨by decide, by decide,
    notebook_outputs_file_independent 2 1 [(1, 2, (5 : ℚ))] 3 2
      [(1, 3, (2 : ℚ)), (2, 3, (4 : ℚ))] (by decide) (by decide)⟩

end MaxCut
